import Mathlib

/-!
Verification of the retention-selection core of the backup-policy repository.

The embedding translates `src/data.py` and `src/retention_policy_applier.py`:

* `BackupFile` / `RetentionPolicy` mirror the dataclasses in `data.py`.
  Timestamps and intervals are integers (a fixed unit, e.g. seconds:
  `datetime`/`timedelta` arithmetic in the source is exact integer
  arithmetic on microseconds, and only differences and ratios are used,
  so any fixed unit is faithful).  Records are tagged with an `id`
  standing for the distinct Python object identity / file path.
* `sortDesc` is the stable descending sort performed by
  `sorted(backups, key=..., reverse=True)` in `_initialize_backup_queue`
  (stable sorts with the same order agree, so insertion sort is a
  faithful model of Python's timsort here).
* `find_backup_to_keep`, `apply_bounded`, `apply_last_fuel` and
  `apply_policies` translate `_find_backup_to_keep`,
  `_apply_single_policy` (its `range(keep_count)` and `count(0)` loops)
  and the policy loop of `apply`.  The division
  `(last - ts) / min_interval` of two `timedelta`s raises
  `ZeroDivisionError` when `min_interval` is the zero interval; this is
  modelled by the `raised` outcome.  Exact rational division stands in
  for Python float division (all quantities compared are far from the
  rounding boundaries in the concrete runs considered, and the spec's
  own statements are about the exact ratios).
* `pyRound` is Python's built-in `round` on the resulting ratio:
  round-half-to-even to an integer.
* The model additionally records a ghost `trace` of keep events (which
  tier admitted which record, and the value of `_last_backup_datetime`
  at that moment).  The trace does not influence control flow; it only
  makes the observable admission history available to theorems.
-/

/-- Python's built-in `round` to an integer: nearest integer,
half-to-even.  With `f = ⌊q⌋`, the fractional part `q - f` equals
`(q.num - f * q.den) / q.den` with a positive denominator, so
comparing it against `1/2` is comparing `2 * (q.num - f * q.den)`
against `q.den`; on the half-way tie the even neighbour of `f`,
`f + 1` is chosen when `f` is odd. -/
def pyRound (q : ℚ) : ℤ :=
  let f := Rat.floor q
  if 2 * (q.num - f * (q.den : ℤ)) < (q.den : ℤ) then f
  else if (q.den : ℤ) < 2 * (q.num - f * (q.den : ℤ)) then f + 1
  else if f % 2 = 0 then f else f + 1

/-- `data.BackupFile`: a backup file with its timestamp and retention
status (`_should_delete`, `field(default=False, init=False)`).  `id`
stands for the identity of the Python object (its `file_path`). -/
structure BackupFile where
  id : ℕ
  timestamp : ℤ
  should_delete : Bool
deriving DecidableEq, Repr

/-- `data.BackupFile.mark_to_delete`: sets `_should_delete := True`. -/
def BackupFile.mark_to_delete (b : BackupFile) : BackupFile :=
  { b with should_delete := true }

/-- `data.RetentionPolicy`: time interval between backups and number of
backups to keep. -/
structure RetentionPolicy where
  interval : ℤ
  keep_count : ℕ
deriving DecidableEq, Repr

instance : Inhabited RetentionPolicy := ⟨⟨0, 0⟩⟩

/-- One step of the stable descending insertion sort: insert `b` after
every already-placed record with a strictly larger timestamp. -/
def insertDesc (b : BackupFile) : List BackupFile → List BackupFile
  | [] => [b]
  | a :: rest =>
    if b.timestamp < a.timestamp then a :: insertDesc b rest
    else b :: a :: rest

/-- `sorted(backups, key=lambda backup: backup.timestamp, reverse=True)`
in `_initialize_backup_queue`: stable sort, newest first, ties keeping
the caller-supplied order. -/
def sortDesc : List BackupFile → List BackupFile
  | [] => []
  | b :: rest => insertDesc b (sortDesc rest)

/-- Result of one call to `_find_backup_to_keep`: either a backup to
keep was returned (with the remaining queue), or the queue was
exhausted (`None`), or `ZeroDivisionError` was raised by the
`timedelta` division.  `marked` is the list of ids of records marked
for deletion so far (mutation of the shared record objects). -/
inductive FindRes where
  | kept (b : BackupFile) (rest : List BackupFile) (marked : List ℕ)
  | exhausted (marked : List ℕ)
  | raised (marked : List ℕ)
deriving DecidableEq, Repr

/-- `RetentionPolicyApplier._find_backup_to_keep(policy)`.  `mi` is
`self._retention_policies[0].interval`, `iv` is `policy.interval`,
`last` is `self._last_backup_datetime`.  Pops from the queue: the
newest backup (no previous keep) is returned at once; otherwise the
elapsed/required interval counts are compared after rounding, the
record is marked to delete and the loop continues, or the record is
returned to be kept.  Dividing by a zero `min_interval` raises. -/
def find_backup_to_keep (mi iv : ℤ) (last : Option ℤ) :
    List BackupFile → List ℕ → FindRes
  | [], marked => .exhausted marked
  | b :: rest, marked =>
    match last with
    | none => .kept b rest marked
    | some l =>
      if mi = 0 then .raised marked
      else
        let intervals_past : ℚ := Rat.divInt (l - b.timestamp) mi
        let required_intervals_to_pass : ℚ := Rat.divInt iv mi
        if pyRound intervals_past < pyRound required_intervals_to_pass then
          find_backup_to_keep mi iv last rest (marked ++ [b.id])
        else .kept b rest marked

/-- Ghost record of one keep decision: the admitting tier's index and
interval, the value of `_last_backup_datetime` just before the
decision, and the record kept. -/
structure KeepEvent where
  tierIdx : ℕ
  interval : ℤ
  lastBefore : Option ℤ
  kept : BackupFile
deriving DecidableEq, Repr

/-- Result of running one or more policy loops: the updated
`_last_backup_datetime`, remaining queue, marked ids and keep trace, or
a propagating `ZeroDivisionError` (with the marks made before it). -/
inductive PolRes where
  | ok (last : Option ℤ) (queue : List BackupFile) (marked : List ℕ)
      (trace : List KeepEvent)
  | raised (marked : List ℕ) (trace : List KeepEvent)
deriving DecidableEq, Repr

/-- `_apply_single_policy` for a non-last policy: the
`for _ in range(policy.keep_count)` loop.  Each iteration finds a
backup to keep (breaking when `None`) and updates
`_last_backup_datetime`. -/
def apply_bounded (mi : ℤ) (tix : ℕ) (iv : ℤ) :
    ℕ → Option ℤ → List BackupFile → List ℕ → List KeepEvent → PolRes
  | 0, last, queue, marked, trace => .ok last queue marked trace
  | n + 1, last, queue, marked, trace =>
    match find_backup_to_keep mi iv last queue marked with
    | .kept b rest m2 =>
      apply_bounded mi tix iv n (some b.timestamp) rest m2
        (trace ++ [⟨tix, iv, last, b⟩])
    | .exhausted m2 => .ok last [] m2 trace
    | .raised m2 => .raised m2 trace

/-- `_apply_single_policy` for the last policy: the unbounded
`for _ in count(0)` loop, modelled with fuel.  Every iteration that
keeps a backup strictly shrinks the queue, so any fuel larger than the
queue length reproduces the unbounded loop exactly (`apply_last_fuel_irrel`
below); the fuel-exhausted branch is unreachable at the fuel used by
`apply_last`. -/
def apply_last_fuel (mi : ℤ) (tix : ℕ) (iv : ℤ) :
    ℕ → Option ℤ → List BackupFile → List ℕ → List KeepEvent → PolRes
  | 0, last, queue, marked, trace => .ok last queue marked trace
  | n + 1, last, queue, marked, trace =>
    match find_backup_to_keep mi iv last queue marked with
    | .kept b rest m2 =>
      apply_last_fuel mi tix iv n (some b.timestamp) rest m2
        (trace ++ [⟨tix, iv, last, b⟩])
    | .exhausted m2 => .ok last [] m2 trace
    | .raised m2 => .raised m2 trace

/-- The unbounded loop of `_apply_single_policy` for the last policy. -/
def apply_last (mi : ℤ) (tix : ℕ) (iv : ℤ) (last : Option ℤ)
    (queue : List BackupFile) (marked : List ℕ) (trace : List KeepEvent) :
    PolRes :=
  apply_last_fuel mi tix iv (queue.length + 1) last queue marked trace

/-- The `for policy in self._retention_policies` loop of `apply`:
`is_last_policy` selects the unbounded loop for the final policy
(`policy is self._retention_policies[-1]`; the policies are distinct
objects, so this is position in the list).  `tix` is the index of the
first policy of `p` in the full list. -/
def apply_policies (mi : ℤ) :
    ℕ → List RetentionPolicy → Option ℤ → List BackupFile → List ℕ →
    List KeepEvent → PolRes
  | _, [], last, queue, marked, trace => .ok last queue marked trace
  | tix, [p], last, queue, marked, trace =>
    apply_last mi tix p.interval last queue marked trace
  | tix, p :: q :: rest, last, queue, marked, trace =>
    match apply_bounded mi tix p.interval p.keep_count last queue marked trace with
    | .ok l qu m tr => apply_policies mi (tix + 1) (q :: rest) l qu m tr
    | .raised m tr => .raised m tr

/-- Apply the accumulated delete marks to the caller's record list (the
records in the queue are the caller's own objects, mutated in place by
`mark_to_delete`). -/
def markIds (m : List ℕ) (bs : List BackupFile) : List BackupFile :=
  bs.map fun b => if b.id ∈ m then b.mark_to_delete else b

/-- Python truthiness of the `queue.Queue` object tested by
`if not self._backup_queue:` in `apply`: `queue.Queue` defines neither
a `bool` nor a length special method, so the object is always truthy,
whatever it contains. -/
def queueTruthy (_q : List BackupFile) : Bool := true

/-- Everything `apply` leaves behind: the caller's records with their
final flags, whether an exception escaped, the ghost keep trace, and
the queue contents remaining on normal return. -/
structure ApplyOutcome where
  records : List BackupFile
  raised : Bool
  trace : List KeepEvent
  leftover : List BackupFile
deriving DecidableEq, Repr

/-- The tier-loop part of `RetentionPolicyApplier.apply`, after the
queue has been initialized: `min_interval` is the first policy's
interval (read only when a policy loop actually runs) and the policy
loop is run over the whole list. -/
def applyCore (policies : List RetentionPolicy) (backups : List BackupFile) :
    ApplyOutcome :=
  match apply_policies policies.headI.interval 0 policies none
      (sortDesc backups) [] [] with
  | .ok _ q m tr => ⟨markIds m backups, false, tr, q⟩
  | .raised m tr => ⟨markIds m backups, true, tr, []⟩

/-- `RetentionPolicyApplier.apply(backups)` for a fresh applier:
initialize the queue from the sorted records, test the (dead)
`if not self._backup_queue:` guard, then run every policy. -/
def applyFull (policies : List RetentionPolicy) (backups : List BackupFile) :
    ApplyOutcome :=
  if queueTruthy (sortDesc backups) = false then
    ⟨backups, false, [], sortDesc backups⟩
  else applyCore policies backups

/-- The observable behaviour of `apply`: each record's final
`should_delete` flag (in caller order) and whether an exception
escaped. -/
def applyModel (policies : List RetentionPolicy) (backups : List BackupFile) :
    List BackupFile × Bool :=
  ((applyFull policies backups).records, (applyFull policies backups).raised)

/-! ## The reference fixture of `retention_policy_applier_test.py`

Timestamps are rendered in seconds since 2025-11-30 00:00:00, in the
order the fixture lists the file names (newest first); `fixtureBackups`
tags each record with its position, as `BackupFile` objects are built
one per file name. -/

/-- The 33 fixture timestamps, `2025-12-01-03-39-17.zip` down to
`2025-11-30-08-36-14.zip`. -/
def fixtureTs : List ℤ :=
  [99557, 98657, 97757, 96857, 95957, 95057, 94157, 93257, 92357, 91457,
   90557, 89657, 88757, 87857, 86957, 86057, 85157, 84256, 83356, 82456,
   81556, 77944, 77044, 76144, 75244, 72236, 71336, 70436, 68926, 68026,
   67126, 31874, 30974]

/-- The fixture's `BackupFile` objects (fresh records,
`_should_delete = False`). -/
def fixtureBackups : List BackupFile :=
  fixtureTs.enum.map fun p => ⟨p.1, p.2, false⟩

/-- The tier list of `test_retention_policy_applier`:
15 minutes x 2, 1 hour x 3, 4 hours x 2, 1 day x 7 (terminal). -/
def fixturePolicies : List RetentionPolicy :=
  [⟨900, 2⟩, ⟨3600, 3⟩, ⟨14400, 2⟩, ⟨86400, 7⟩]

/-- Positions of the records the fixture expects to survive:
03:39:17, 03:24:17, 02:24:17, 01:24:17, 00:24:17 of 12-01 and
20:03:56, 08:51:14 of 11-30. -/
def fixtureKeepIds : List ℕ := [0, 1, 5, 9, 13, 25, 31]

/-- The expected final state of the fixture records: exactly the seven
listed records keep `should_delete = False`, every other record is
marked. -/
def fixtureExpected : List BackupFile :=
  fixtureBackups.map fun b =>
    if b.id ∈ fixtureKeepIds then b else b.mark_to_delete

/-- C1: applying the tier list [15m x 2, 1h x 3, 4h x 2, 1d x unbounded]
to the reference fixture keeps exactly the records at 03:39:17,
03:24:17, 02:24:17, 01:24:17, 00:24:17 (12-01), 20:03:56 and 08:51:14
(11-30), marks every other record for deletion, and returns normally. -/
theorem c1_fixture_reproduces_exactly :
    applyModel fixturePolicies fixtureBackups = (fixtureExpected, false) := by
  decide

/-- Unfolding lemma: the policy loop on a list with at least two
policies runs the bounded loop for the head and continues. -/
theorem apply_policies_cons (mi : ℤ) (tix : ℕ) (p : RetentionPolicy)
    (ps : List RetentionPolicy) (hps : ps ≠ []) (l : Option ℤ)
    (qu : List BackupFile) (m : List ℕ) (tr : List KeepEvent) :
    apply_policies mi tix (p :: ps) l qu m tr =
      match apply_bounded mi tix p.interval p.keep_count l qu m tr with
      | .ok l2 q2 m2 tr2 => apply_policies mi (tix + 1) ps l2 q2 m2 tr2
      | .raised m2 tr2 => .raised m2 tr2 := by
  cases ps with
  | nil => exact absurd rfl hps
  | cons a b => rfl

/-- The bounded policy loop does nothing on an empty queue (the first
`_find_backup_to_keep` returns `None` and the loop breaks). -/
theorem apply_bounded_nil (mi : ℤ) (tix : ℕ) (iv : ℤ) (n : ℕ)
    (last : Option ℤ) (m : List ℕ) (tr : List KeepEvent) :
    apply_bounded mi tix iv n last [] m tr = .ok last [] m tr := by
  cases n <;> rfl

/-- The whole policy loop does nothing on an empty queue. -/
theorem apply_policies_nil_queue (mi : ℤ) :
    ∀ (p : List RetentionPolicy) (tix : ℕ) (last : Option ℤ) (m : List ℕ)
      (tr : List KeepEvent),
      apply_policies mi tix p last [] m tr = .ok last [] m tr := by
  intro p
  induction p with
  | nil => intro tix last m tr; rfl
  | cons hd tl ih =>
    intro tix last m tr
    cases tl with
    | nil => rfl
    | cons p2 rest =>
      rw [apply_policies_cons mi tix hd (p2 :: rest) (by simp),
        apply_bounded_nil]
      exact ih (tix + 1) last m tr

/-- C8: `apply` on an empty record collection is a no-op for every tier
list: it returns normally (no exception) and leaves every record flag
unchanged (there are none). -/
theorem c8_empty_input_noop (p : List RetentionPolicy) :
    applyModel p [] = ([], false) := by
  show ((applyFull p []).records, (applyFull p []).raised) = ([], false)
  have h : applyFull p [] = ⟨[], false, [], []⟩ := by
    show applyCore p [] = _
    show (match apply_policies p.headI.interval 0 p none (sortDesc []) [] [] with
      | .ok _ q m tr => (⟨markIds m [], false, tr, q⟩ : ApplyOutcome)
      | .raised m tr => ⟨markIds m [], true, tr, []⟩) = _
    rw [show sortDesc [] = [] from rfl, apply_policies_nil_queue]
    rfl
  rw [h]

/-- The result of the policy loop does not depend on the final
policy's `keep_count`: the last policy runs the unbounded loop, which
never reads it. -/
theorem apply_policies_last_keep_count (mi iv : ℤ) (k k' : ℕ) :
    ∀ (q : List RetentionPolicy) (tix : ℕ) (l : Option ℤ)
      (qu : List BackupFile) (m : List ℕ) (tr : List KeepEvent),
      apply_policies mi tix (q ++ [⟨iv, k⟩]) l qu m tr
        = apply_policies mi tix (q ++ [⟨iv, k'⟩]) l qu m tr := by
  intro q
  induction q with
  | nil => intro tix l qu m tr; rfl
  | cons hd tl ih =>
    intro tix l qu m tr
    rw [List.cons_append, List.cons_append,
      apply_policies_cons mi tix hd
        (tl ++ [({ interval := iv, keep_count := k } : RetentionPolicy)])
        (by simp) l qu m tr,
      apply_policies_cons mi tix hd
        (tl ++ [({ interval := iv, keep_count := k' } : RetentionPolicy)])
        (by simp) l qu m tr]
    cases apply_bounded mi tix hd.interval hd.keep_count l qu m tr with
    | ok l2 q2 m2 tr2 => exact ih (tix + 1) l2 q2 m2 tr2
    | raised m2 tr2 => rfl

/-- C9: the verdicts of `apply` do not depend on the last tier's
`keep_count`: two runs whose tier lists differ only there produce
identical flags and the same exception behaviour, because the final
tier always runs unbounded until the cursor is exhausted. -/
theorem c9_last_keep_count_irrelevant (b : List BackupFile)
    (q : List RetentionPolicy) (iv : ℤ) (k k' : ℕ) :
    applyModel (q ++ [⟨iv, k⟩]) b = applyModel (q ++ [⟨iv, k'⟩]) b := by
  have hmi : (q ++ [(⟨iv, k⟩ : RetentionPolicy)]).headI.interval
      = (q ++ [(⟨iv, k'⟩ : RetentionPolicy)]).headI.interval := by
    cases q <;> rfl
  have h : applyFull (q ++ [⟨iv, k⟩]) b = applyFull (q ++ [⟨iv, k'⟩]) b := by
    show applyCore _ b = applyCore _ b
    show (match apply_policies (q ++ [(⟨iv, k⟩ : RetentionPolicy)]).headI.interval
        0 (q ++ [⟨iv, k⟩]) none (sortDesc b) [] [] with
      | .ok _ qu m tr => (⟨markIds m b, false, tr, qu⟩ : ApplyOutcome)
      | .raised m tr => ⟨markIds m b, true, tr, []⟩) = _
    rw [hmi,
      apply_policies_last_keep_count
        ((q ++ [({ interval := iv, keep_count := k' } : RetentionPolicy)]).headI.interval)
        iv k k' q 0 none (sortDesc b) [] []]
    rfl
  show ((applyFull (q ++ [⟨iv, k⟩]) b).records, _) = _
  rw [h]
  rfl

/-- C10: the empty-queue early-return branch of `apply` is dead code:
`not self._backup_queue` tests the truthiness of a `queue.Queue`
object, which is always true, so `apply` always proceeds to the tier
loop whatever records were supplied. -/
theorem c10_empty_guard_unreachable (p : List RetentionPolicy)
    (b : List BackupFile) :
    queueTruthy (sortDesc b) = true ∧ applyFull p b = applyCore p b :=
  ⟨rfl, rfl⟩

/-! ## Characterisation of a single `_find_backup_to_keep` call -/

/-- The marked ids carried by a loop result. -/
def PolRes.markedIds : PolRes → List ℕ
  | .ok _ _ m _ => m
  | .raised m _ => m

/-- The keep trace carried by a loop result. -/
def PolRes.traceOf : PolRes → List KeepEvent
  | .ok _ _ _ tr => tr
  | .raised _ tr => tr

/-- When `_find_backup_to_keep` returns a backup to keep, the queue
split into the records it marked (popped and marked to delete), the
kept record and the rest; a keep with a previous kept record implies
the rounded-interval admission condition, and the very first keep of a
run (no previous kept record) marks nothing. -/
theorem find_kept_spec (mi iv : ℤ) (l : Option ℤ) :
    ∀ (q : List BackupFile) (m : List ℕ) (b : BackupFile)
      (rest : List BackupFile) (m2 : List ℕ),
      find_backup_to_keep mi iv l q m = .kept b rest m2 →
      ∃ dropped, q = dropped ++ b :: rest ∧
        m2 = m ++ dropped.map (fun r => r.id) ∧
        (l = none → dropped = []) ∧
        (∀ l0, l = some l0 →
          pyRound (Rat.divInt iv mi)
            ≤ pyRound (Rat.divInt (l0 - b.timestamp) mi)) ∧
        (mi = 0 → dropped = []) := by
  intro q
  induction q with
  | nil => intro m b rest m2 h; exact absurd h (by simp [find_backup_to_keep])
  | cons a q0 ih =>
    intro m b rest m2 h
    cases l with
    | none =>
      simp only [find_backup_to_keep] at h
      injection h with h1 h2 h3
      subst h1; subst h2; subst h3
      exact ⟨[], rfl, by simp, fun _ => rfl, by simp, fun _ => rfl⟩
    | some l0 =>
      simp only [find_backup_to_keep] at h
      by_cases hmi : mi = 0
      · simp [hmi] at h
      · simp only [if_neg hmi] at h
        by_cases hlt : pyRound (Rat.divInt (l0 - a.timestamp) mi)
            < pyRound (Rat.divInt iv mi)
        · simp only [if_pos hlt] at h
          obtain ⟨dropped, hq, hm, _, hineq, _⟩ := ih (m ++ [a.id]) b rest m2 h
          refine ⟨a :: dropped, by simp [hq], by simp [hm], by simp, ?_,
            fun h0 => absurd h0 hmi⟩
          intro l1 hl1
          cases hl1
          exact hineq l0 rfl
        · simp only [if_neg hlt] at h
          injection h with h1 h2 h3
          subst h1; subst h2; subst h3
          refine ⟨[], rfl, by simp, fun _ => rfl, ?_, fun _ => rfl⟩
          intro l1 hl1
          cases hl1
          exact not_lt.mp hlt

/-- When `_find_backup_to_keep` exhausts the queue, every queued record
was popped and marked. -/
theorem find_exhausted_spec (mi iv : ℤ) (l : Option ℤ) :
    ∀ (q : List BackupFile) (m m2 : List ℕ),
      find_backup_to_keep mi iv l q m = .exhausted m2 →
      m2 = m ++ q.map (fun r => r.id) ∧ (mi = 0 → q = []) := by
  intro q
  induction q with
  | nil =>
    intro m m2 h
    simp only [find_backup_to_keep] at h
    cases h; exact ⟨by simp, fun _ => rfl⟩
  | cons a q0 ih =>
    intro m m2 h
    cases l with
    | none => simp [find_backup_to_keep] at h
    | some l0 =>
      simp only [find_backup_to_keep] at h
      by_cases hmi : mi = 0
      · simp [hmi] at h
      · simp only [if_neg hmi] at h
        by_cases hlt : pyRound (Rat.divInt (l0 - a.timestamp) mi)
            < pyRound (Rat.divInt iv mi)
        · simp only [if_pos hlt] at h
          obtain ⟨hm2, -⟩ := ih (m ++ [a.id]) m2 h
          exact ⟨by simp [hm2], fun h0 => absurd h0 hmi⟩
        · simp [if_neg hlt] at h

/-- `_find_backup_to_keep` raises only on the zero first interval, and
raises before marking anything (the division precedes the mark). -/
theorem find_raised_spec (mi iv : ℤ) (l : Option ℤ) :
    ∀ (q : List BackupFile) (m m2 : List ℕ),
      find_backup_to_keep mi iv l q m = .raised m2 →
      mi = 0 ∧ m2 = m := by
  intro q
  induction q with
  | nil => intro m m2 h; simp [find_backup_to_keep] at h
  | cons a q0 ih =>
    intro m m2 h
    cases l with
    | none => simp [find_backup_to_keep] at h
    | some l0 =>
      simp only [find_backup_to_keep] at h
      by_cases hmi : mi = 0
      · simp only [if_pos hmi] at h
        cases h; exact ⟨hmi, rfl⟩
      · simp only [if_neg hmi] at h
        by_cases hlt : pyRound (Rat.divInt (l0 - a.timestamp) mi)
            < pyRound (Rat.divInt iv mi)
        · simp only [if_pos hlt] at h
          obtain ⟨h0, _⟩ := ih (m ++ [a.id]) m2 h
          exact absurd h0 hmi
        · simp [if_neg hlt] at h

/-! ## Invariants of the policy loops -/

/-- The bounded and the unbounded loop bodies coincide; only the
iteration budget differs. -/
theorem apply_last_fuel_eq_bounded (mi : ℤ) (tix : ℕ) (iv : ℤ) :
    ∀ (n : ℕ) (l : Option ℤ) (q : List BackupFile) (m : List ℕ)
      (tr : List KeepEvent),
      apply_last_fuel mi tix iv n l q m tr = apply_bounded mi tix iv n l q m tr := by
  intro n
  induction n with
  | zero => intro l q m tr; rfl
  | succ n ih =>
    intro l q m tr
    rw [show apply_last_fuel mi tix iv (n + 1) l q m tr =
      (match find_backup_to_keep mi iv l q m with
      | .kept b rest m2 =>
        apply_last_fuel mi tix iv n (some b.timestamp) rest m2
          (tr ++ [(⟨tix, iv, l, b⟩ : KeepEvent)])
      | .exhausted m2 => (.ok l [] m2 tr : PolRes)
      | .raised m2 => .raised m2 tr) from rfl,
      show apply_bounded mi tix iv (n + 1) l q m tr =
      (match find_backup_to_keep mi iv l q m with
      | .kept b rest m2 =>
        apply_bounded mi tix iv n (some b.timestamp) rest m2
          (tr ++ [(⟨tix, iv, l, b⟩ : KeepEvent)])
      | .exhausted m2 => (.ok l [] m2 tr : PolRes)
      | .raised m2 => .raised m2 tr) from rfl]
    cases find_backup_to_keep mi iv l q m with
    | kept b rest m2 => exact ih (some b.timestamp) rest m2 (tr ++ [⟨tix, iv, l, b⟩])
    | exhausted m2 => rfl
    | raised m2 => rfl

/-- Master invariant of the bounded loop on normal completion: the
records consumed from the queue form a prefix; their ids are exactly
the new marks plus the newly kept (traced) records; every new event
belongs to this tier and there are at most as many as the iteration
budget. -/
theorem apply_bounded_ok (mi : ℤ) (tix : ℕ) (iv : ℤ) :
    ∀ (n : ℕ) (l : Option ℤ) (q : List BackupFile) (m : List ℕ)
      (tr : List KeepEvent) (l' : Option ℤ) (q' : List BackupFile)
      (m' : List ℕ) (tr' : List KeepEvent),
      apply_bounded mi tix iv n l q m tr = .ok l' q' m' tr' →
      ∃ cons ms es, q = cons ++ q' ∧ m' = m ++ ms ∧ tr' = tr ++ es ∧
        (ms ++ es.map (fun e => e.kept.id)).Perm (cons.map (fun r => r.id)) ∧
        (∀ e ∈ es, e.tierIdx = tix ∧ e.interval = iv) ∧ es.length ≤ n ∧
        (mi = 0 → ms = []) := by
  intro n
  induction n with
  | zero =>
    intro l q m tr l' q' m' tr' h
    injection h with h1 h2 h3 h4
    subst h2; subst h3; subst h4
    refine ⟨[], [], [], by simp, by simp, by simp, by simp, by simp, by simp,
      fun _ => rfl⟩
  | succ n ih =>
    intro l q m tr l' q' m' tr' h
    rw [show apply_bounded mi tix iv (n + 1) l q m tr =
      (match find_backup_to_keep mi iv l q m with
      | .kept b rest m2 =>
        apply_bounded mi tix iv n (some b.timestamp) rest m2
          (tr ++ [⟨tix, iv, l, b⟩])
      | .exhausted m2 => .ok l [] m2 tr
      | .raised m2 => .raised m2 tr) from rfl] at h
    cases hf : find_backup_to_keep mi iv l q m with
    | kept b rest m2 =>
      rw [hf] at h
      obtain ⟨cons0, ms0, es0, hq0, hm0, htr0, hperm0, hes0, hlen0, hz0⟩ :=
        ih (some b.timestamp) rest m2 (tr ++ [⟨tix, iv, l, b⟩]) l' q' m' tr' h
      obtain ⟨dropped, hq, hm, -, -, hdz⟩ := find_kept_spec mi iv l q m b rest m2 hf
      refine ⟨dropped ++ b :: cons0, dropped.map (fun r => r.id) ++ ms0,
        ⟨tix, iv, l, b⟩ :: es0, ?_, ?_, ?_, ?_, ?_, ?_, ?_⟩
      · rw [hq, hq0]; simp
      · rw [hm0, hm]; simp
      · rw [htr0]; simp
      · simp only [List.map_append, List.map_cons, List.append_assoc]
        exact List.Perm.append_left _ (List.perm_middle.trans (hperm0.cons b.id))
      · intro e he
        rcases List.mem_cons.mp he with he | he
        · subst he; exact ⟨rfl, rfl⟩
        · exact hes0 e he
      · simpa using Nat.succ_le_succ hlen0
      · intro h0
        rw [hdz h0, hz0 h0]
        simp
    | exhausted m2 =>
      rw [hf] at h
      injection h with h1 h2 h3 h4
      subst h2; subst h3; subst h4
      obtain ⟨hm2, hqz⟩ := find_exhausted_spec mi iv l q m m2 hf
      refine ⟨q, q.map (fun r => r.id), [], by simp, by simpa using hm2,
        by simp, by simp, by simp, by simp, ?_⟩
      intro h0
      rw [hqz h0]
      simp
    | raised m2 =>
      rw [hf] at h
      exact absurd h (by simp)

/-- Master invariant of the bounded loop when the division raises: the
first interval is zero and nothing was marked at the moment the
exception escaped (every mark is guarded by a successful division by
the same first interval). -/
theorem apply_bounded_raised (mi : ℤ) (tix : ℕ) (iv : ℤ) :
    ∀ (n : ℕ) (l : Option ℤ) (q : List BackupFile) (m : List ℕ)
      (tr : List KeepEvent) (m' : List ℕ) (tr' : List KeepEvent),
      apply_bounded mi tix iv n l q m tr = .raised m' tr' →
      mi = 0 ∧ m' = m := by
  intro n
  induction n with
  | zero => intro l q m tr m' tr' h; exact absurd h (by simp [apply_bounded])
  | succ n ih =>
    intro l q m tr m' tr' h
    rw [show apply_bounded mi tix iv (n + 1) l q m tr =
      (match find_backup_to_keep mi iv l q m with
      | .kept b rest m2 =>
        apply_bounded mi tix iv n (some b.timestamp) rest m2
          (tr ++ [⟨tix, iv, l, b⟩])
      | .exhausted m2 => .ok l [] m2 tr
      | .raised m2 => .raised m2 tr) from rfl] at h
    cases hf : find_backup_to_keep mi iv l q m with
    | kept b rest m2 =>
      rw [hf] at h
      obtain ⟨h0, hm2⟩ := ih (some b.timestamp) rest m2 (tr ++ [⟨tix, iv, l, b⟩]) m' tr' h
      obtain ⟨dropped, -, hm, -, -, hmi0⟩ := find_kept_spec mi iv l q m b rest m2 hf
      refine ⟨h0, ?_⟩
      rw [hm2, hm, hmi0 h0]
      simp
    | exhausted m2 =>
      rw [hf] at h
      exact absurd h (by simp)
    | raised m2 =>
      rw [hf] at h
      injection h with h1 h2
      obtain ⟨h0, hm2⟩ := find_raised_spec mi iv l q m m2 hf
      exact ⟨h0, h1 ▸ hm2⟩

/-- Interchange permutation for concatenations. -/
theorem append_swap_perm {α : Type} (a b c d : List α) :
    ((a ++ b) ++ (c ++ d)).Perm ((a ++ c) ++ (b ++ d)) := by
  rw [List.append_assoc, List.append_assoc]
  refine List.Perm.append_left a ?_
  rw [← List.append_assoc, ← List.append_assoc]
  exact List.Perm.append_right d List.perm_append_comm

/-- With an iteration budget exceeding the queue length, a normally
completed bounded loop has drained the queue (this is the situation of
the unbounded terminal loop). -/
theorem apply_bounded_ok_drain (mi : ℤ) (tix : ℕ) (iv : ℤ) :
    ∀ (n : ℕ) (l : Option ℤ) (q : List BackupFile) (m : List ℕ)
      (tr : List KeepEvent) (l' : Option ℤ) (q' : List BackupFile)
      (m' : List ℕ) (tr' : List KeepEvent),
      q.length < n → apply_bounded mi tix iv n l q m tr = .ok l' q' m' tr' →
      q' = [] := by
  intro n
  induction n with
  | zero => intro l q m tr l' q' m' tr' hlt h; exact absurd hlt (by simp)
  | succ n ih =>
    intro l q m tr l' q' m' tr' hlt h
    rw [show apply_bounded mi tix iv (n + 1) l q m tr =
      (match find_backup_to_keep mi iv l q m with
      | .kept b rest m2 =>
        apply_bounded mi tix iv n (some b.timestamp) rest m2
          (tr ++ [⟨tix, iv, l, b⟩])
      | .exhausted m2 => .ok l [] m2 tr
      | .raised m2 => .raised m2 tr) from rfl] at h
    cases hf : find_backup_to_keep mi iv l q m with
    | kept b rest m2 =>
      rw [hf] at h
      obtain ⟨dropped, hq, -, -, -, -⟩ := find_kept_spec mi iv l q m b rest m2 hf
      refine ih (some b.timestamp) rest m2 (tr ++ [⟨tix, iv, l, b⟩]) l' q' m' tr' ?_ h
      have : rest.length < q.length := by
        rw [hq]
        simp
        omega
      omega
    | exhausted m2 =>
      rw [hf] at h
      injection h with h1 h2 h3 h4
      exact h2.symm
    | raised m2 =>
      rw [hf] at h
      exact absurd h (by simp)

/-- Master invariant of the whole policy loop on normal completion:
the consumed records form a prefix of the queue whose ids split,
up to permutation, into the new marks and the newly kept records; a
non-empty tier list drains the queue; the events admitted by
non-terminal tiers number at most the sum of their `keep_count`s. -/
theorem apply_policies_ok (mi : ℤ) :
    ∀ (p : List RetentionPolicy) (tix : ℕ) (l : Option ℤ)
      (q : List BackupFile) (m : List ℕ) (tr : List KeepEvent)
      (l' : Option ℤ) (q' : List BackupFile) (m' : List ℕ)
      (tr' : List KeepEvent),
      apply_policies mi tix p l q m tr = .ok l' q' m' tr' →
      ∃ cons ms es, q = cons ++ q' ∧ m' = m ++ ms ∧ tr' = tr ++ es ∧
        (ms ++ es.map (fun e => e.kept.id)).Perm (cons.map (fun r => r.id)) ∧
        (p ≠ [] → q' = []) ∧
        (es.countP (fun e => !(e.tierIdx == tix + (p.length - 1))))
          ≤ ((p.dropLast).map (fun t => t.keep_count)).sum ∧
        (mi = 0 → ms = []) := by
  intro p
  induction p with
  | nil =>
    intro tix l q m tr l' q' m' tr' h
    injection h with h1 h2 h3 h4
    subst h2; subst h3; subst h4
    refine ⟨[], [], [], by simp, by simp, by simp, by simp,
      fun hc => absurd rfl hc, by simp, fun _ => rfl⟩
  | cons p0 tl ih =>
    intro tix l q m tr l' q' m' tr' h
    cases tl with
    | nil =>
      rw [show apply_policies mi tix [p0] l q m tr
          = apply_last mi tix p0.interval l q m tr from rfl,
        show apply_last mi tix p0.interval l q m tr
          = apply_last_fuel mi tix p0.interval (q.length + 1) l q m tr from rfl,
        apply_last_fuel_eq_bounded] at h
      obtain ⟨cons, ms, es, hq, hm, htr, hperm, hes, -, hz⟩ :=
        apply_bounded_ok mi tix p0.interval (q.length + 1) l q m tr l' q' m' tr' h
      have hq' : q' = [] :=
        apply_bounded_ok_drain mi tix p0.interval (q.length + 1) l q m tr
          l' q' m' tr' (by omega) h
      refine ⟨cons, ms, es, hq, hm, htr, hperm, fun _ => hq', ?_, hz⟩
      have : ∀ e ∈ es, (fun e => !(e.tierIdx == tix + ([p0].length - 1))) e = false := by
        intro e he
        have := (hes e he).1
        simp [this]
      rw [List.countP_eq_zero.mpr (by simpa using this)]
      simp
    | cons p1 rest =>
      rw [apply_policies_cons mi tix p0 (p1 :: rest) (by simp)] at h
      cases hb : apply_bounded mi tix p0.interval p0.keep_count l q m tr with
      | ok l2 q2 m2 tr2 =>
        rw [hb] at h
        obtain ⟨c1, ms1, es1, hq1, hm1, htr1, hperm1, hes1, hlen1, hz1⟩ :=
          apply_bounded_ok mi tix p0.interval p0.keep_count l q m tr l2 q2 m2 tr2 hb
        obtain ⟨c2, ms2, es2, hq2, hm2, htr2, hperm2, hne2, hcnt2, hz2⟩ :=
          ih (tix + 1) l2 q2 m2 tr2 l' q' m' tr' h
        refine ⟨c1 ++ c2, ms1 ++ ms2, es1 ++ es2, ?_, ?_, ?_, ?_, ?_, ?_, ?_⟩
        · rw [hq1, hq2, List.append_assoc]
        · rw [hm2, hm1, List.append_assoc]
        · rw [htr2, htr1, List.append_assoc]
        · refine List.Perm.trans ?_ ((hperm1.append hperm2).trans ?_)
          · rw [List.map_append]
            exact append_swap_perm ms1 ms2 (es1.map fun e => e.kept.id)
              (es2.map fun e => e.kept.id)
          · rw [List.map_append]
        · intro hc
          exact hne2 (by simp)
        · rw [List.countP_append]
          have he1 : (es1.countP fun e => !(e.tierIdx == tix + ((p0 :: p1 :: rest).length - 1)))
              ≤ p0.keep_count := by
            refine le_trans (le_trans (List.countP_le_length _) le_rfl) hlen1
          have he2 : (es2.countP fun e => !(e.tierIdx == tix + ((p0 :: p1 :: rest).length - 1)))
              ≤ (((p1 :: rest).dropLast).map (fun t => t.keep_count)).sum := by
            have harith : (tix + 1) + ((p1 :: rest).length - 1)
                = tix + ((p0 :: p1 :: rest).length - 1) := by
              simp
              omega
            rw [← harith]
            exact hcnt2
          have hsum : (((p0 :: p1 :: rest).dropLast).map (fun t => t.keep_count)).sum
              = p0.keep_count + (((p1 :: rest).dropLast).map (fun t => t.keep_count)).sum := by
            rfl
          rw [hsum]
          omega
        · intro h0
          rw [hz1 h0, hz2 h0]
          simp
      | raised m2 =>
        rw [hb] at h
        exact absurd h (by simp)

/-- Master invariant of the whole policy loop when the division raises:
the first interval is zero and nothing was marked before the exception
escaped. -/
theorem apply_policies_raised (mi : ℤ) :
    ∀ (p : List RetentionPolicy) (tix : ℕ) (l : Option ℤ)
      (q : List BackupFile) (m : List ℕ) (tr : List KeepEvent)
      (m' : List ℕ) (tr' : List KeepEvent),
      apply_policies mi tix p l q m tr = .raised m' tr' →
      mi = 0 ∧ m' = m := by
  intro p
  induction p with
  | nil =>
    intro tix l q m tr m' tr' h
    exact absurd h (by simp [apply_policies])
  | cons p0 tl ih =>
    intro tix l q m tr m' tr' h
    cases tl with
    | nil =>
      rw [show apply_policies mi tix [p0] l q m tr
          = apply_last mi tix p0.interval l q m tr from rfl,
        show apply_last mi tix p0.interval l q m tr
          = apply_last_fuel mi tix p0.interval (q.length + 1) l q m tr from rfl,
        apply_last_fuel_eq_bounded] at h
      exact apply_bounded_raised mi tix p0.interval (q.length + 1) l q m tr m' tr' h
    | cons p1 rest =>
      rw [apply_policies_cons mi tix p0 (p1 :: rest) (by simp)] at h
      cases hb : apply_bounded mi tix p0.interval p0.keep_count l q m tr with
      | ok l2 q2 m2 tr2 =>
        rw [hb] at h
        obtain ⟨h0, hm'⟩ := ih (tix + 1) l2 q2 m2 tr2 m' tr' h
        obtain ⟨c1, ms1, es1, -, hm1, -, -, -, -, hz1⟩ :=
          apply_bounded_ok mi tix p0.interval p0.keep_count l q m tr l2 q2 m2 tr2 hb
        refine ⟨h0, ?_⟩
        rw [hm', hm1, hz1 h0]
        simp
      | raised m2 tr2 =>
        rw [hb] at h
        injection h with h1 h2
        obtain ⟨h0, hm2⟩ :=
          apply_bounded_raised mi tix p0.interval p0.keep_count l q m tr m2 tr2 hb
        exact ⟨h0, h1 ▸ hm2⟩

/-- Marking nothing changes nothing. -/
theorem markIds_nil (bs : List BackupFile) : markIds [] bs = bs := by
  simp [markIds]

/-- Unfolding `apply` on a normally completed policy loop. -/
theorem applyFull_eq_ok (p : List RetentionPolicy) (b : List BackupFile)
    (l' : Option ℤ) (q' : List BackupFile) (m' : List ℕ)
    (tr' : List KeepEvent)
    (h : apply_policies p.headI.interval 0 p none (sortDesc b) [] []
      = .ok l' q' m' tr') :
    applyFull p b = ⟨markIds m' b, false, tr', q'⟩ := by
  show applyCore p b = _
  unfold applyCore
  rw [h]

/-- Unfolding `apply` on a policy loop that raised. -/
theorem applyFull_eq_raised (p : List RetentionPolicy) (b : List BackupFile)
    (m' : List ℕ) (tr' : List KeepEvent)
    (h : apply_policies p.headI.interval 0 p none (sortDesc b) [] []
      = .raised m' tr') :
    applyFull p b = ⟨markIds m' b, true, tr', []⟩ := by
  show applyCore p b = _
  unfold applyCore
  rw [h]

/-- C6: `apply` is atomic with respect to exceptions: if the call
raises, no record flag was modified before the exception escaped; on a
normal return with a non-empty tier list every record was pulled off
the queue and definitively classified (the queue is drained). -/
theorem c6_exception_atomicity (p : List RetentionPolicy)
    (b : List BackupFile) :
    ((applyModel p b).2 = true → (applyModel p b).1 = b) ∧
    (p ≠ [] → (applyFull p b).raised = false →
      (applyFull p b).leftover = []) := by
  cases hres : apply_policies p.headI.interval 0 p none (sortDesc b) [] [] with
  | ok l' q' m' tr' =>
    have hfull := applyFull_eq_ok p b l' q' m' tr' hres
    constructor
    · intro hr
      rw [show (applyModel p b).2 = (applyFull p b).raised from rfl, hfull] at hr
      exact absurd hr (by simp)
    · intro hp _
      rw [hfull]
      obtain ⟨-, -, -, -, -, -, -, hne, -, -⟩ :=
        apply_policies_ok p.headI.interval p 0 none (sortDesc b) [] []
          l' q' m' tr' hres
      exact hne hp
  | raised m' tr' =>
    have hfull := applyFull_eq_raised p b m' tr' hres
    obtain ⟨-, hm⟩ :=
      apply_policies_raised p.headI.interval p 0 none (sortDesc b) [] []
        m' tr' hres
    constructor
    · intro _
      rw [show (applyModel p b).1 = (applyFull p b).records from rfl, hfull,
        hm, markIds_nil]
    · intro hp hr
      rw [hfull] at hr
      exact absurd hr (by simp)

/-- Witness for C6: a zero first interval with two records raises with
all flags untouched; a well-formed run on one record drains the queue. -/
theorem c6_witness :
    (applyModel [⟨0, 2⟩] [⟨0, 10, false⟩, ⟨1, 0, false⟩]).1
      = [⟨0, 10, false⟩, ⟨1, 0, false⟩] ∧
    (applyFull [⟨900, 1⟩] [⟨0, 10, false⟩]).leftover = [] :=
  ⟨(c6_exception_atomicity [⟨0, 2⟩] [⟨0, 10, false⟩, ⟨1, 0, false⟩]).1
      (by decide),
    (c6_exception_atomicity [⟨900, 1⟩] [⟨0, 10, false⟩]).2
      (by decide) (by decide)⟩

/-- C5 counterexample: on the malformed tier list [900 x 1, 500 x 7]
(spacing decreases from tier 0 to tier 1), `apply` does not reject the
call: it returns normally (no configuration error, no exception) and
it does compute record verdicts — the record at timestamp 900 is
marked for deletion. -/
theorem c5_counterexample_not_rejected :
    (applyModel [⟨900, 1⟩, ⟨500, 7⟩]
        [⟨0, 1000, false⟩, ⟨1, 900, false⟩, ⟨2, 0, false⟩]).2 = false ∧
    (applyModel [⟨900, 1⟩, ⟨500, 7⟩]
        [⟨0, 1000, false⟩, ⟨1, 900, false⟩, ⟨2, 0, false⟩]).1
      = [⟨0, 1000, false⟩, ⟨1, 900, true⟩, ⟨2, 0, false⟩] := by
  decide

/-- C5 amended: neither the constructor nor `apply` validates the tier
list.  An empty tier list is not rejected: `apply` is a no-op that
leaves every verdict unchanged and returns normally.  A tier list with
a non-zero first interval — monotone or not — is processed by the
normal algorithm without any error (the only possible exception is the
zero division on a zero first interval). -/
theorem c5_amended_no_validation :
    (∀ b : List BackupFile, applyModel [] b = (b, false)) ∧
    (∀ (p : List RetentionPolicy) (b : List BackupFile),
      p.headI.interval ≠ 0 → (applyModel p b).2 = false) := by
  constructor
  · intro b
    have h : apply_policies ([] : List RetentionPolicy).headI.interval 0 []
        none (sortDesc b) [] [] = .ok none (sortDesc b) [] [] := rfl
    have hfull := applyFull_eq_ok [] b none (sortDesc b) [] [] h
    show ((applyFull [] b).records, (applyFull [] b).raised) = (b, false)
    rw [hfull, markIds_nil]
  · intro p b hmi
    cases hres : apply_policies p.headI.interval 0 p none (sortDesc b) [] [] with
    | ok l' q' m' tr' =>
      have hfull := applyFull_eq_ok p b l' q' m' tr' hres
      show (applyFull p b).raised = false
      rw [hfull]
    | raised m' tr' =>
      obtain ⟨h0, -⟩ :=
        apply_policies_raised p.headI.interval p 0 none (sortDesc b) [] []
          m' tr' hres
      exact absurd h0 hmi

/-- Witness for the amended C5 at concrete inputs. -/
theorem c5_amended_witness :
    applyModel [] [⟨0, 7, false⟩] = ([⟨0, 7, false⟩], false) ∧
    (applyModel [⟨900, 1⟩, ⟨500, 7⟩] [⟨0, 7, false⟩]).2 = false :=
  ⟨c5_amended_no_validation.1 [⟨0, 7, false⟩],
    c5_amended_no_validation.2 [⟨900, 1⟩, ⟨500, 7⟩] [⟨0, 7, false⟩]
      (by decide)⟩

/-! ## The sorted queue and the newest record -/

/-- Inserting a maximum puts it at the front. -/
theorem insertDesc_head_of_max (x : BackupFile) (L : List BackupFile)
    (hL : ∀ y ∈ L, y.timestamp ≤ x.timestamp) :
    ∃ t, insertDesc x L = x :: t := by
  cases L with
  | nil => exact ⟨[], rfl⟩
  | cons a L0 =>
    have h : ¬ x.timestamp < a.timestamp := not_lt.mpr (hL a (by simp))
    exact ⟨a :: L0, by simp [insertDesc, h]⟩

/-- `insertDesc` produces a permutation. -/
theorem insertDesc_perm (x : BackupFile) :
    ∀ L : List BackupFile, (insertDesc x L).Perm (x :: L) := by
  intro L
  induction L with
  | nil => simp [insertDesc]
  | cons a L0 ih =>
    by_cases h : x.timestamp < a.timestamp
    · rw [show insertDesc x (a :: L0) = a :: insertDesc x L0 from by
        simp [insertDesc, h]]
      exact (ih.cons a).trans (List.Perm.swap x a L0)
    · rw [show insertDesc x (a :: L0) = x :: a :: L0 from by
        simp [insertDesc, h]]

/-- The sorted queue is a permutation of the input records. -/
theorem sortDesc_perm : ∀ b : List BackupFile, (sortDesc b).Perm b := by
  intro b
  induction b with
  | nil => simp [sortDesc]
  | cons x rest ih =>
    exact (insertDesc_perm x (sortDesc rest)).trans (ih.cons x)

/-- The head of the sorted queue is the record with the maximum
timestamp, and among equal timestamps the one earliest in the input
(the stable sort keeps earlier input first). -/
theorem sortDesc_head_firstmax :
    ∀ (b : List BackupFile) (i : ℕ) (hi : i < b.length),
      (∀ (j : ℕ) (hj : j < b.length),
        (b.get ⟨j, hj⟩).timestamp ≤ (b.get ⟨i, hi⟩).timestamp) →
      (∀ (j : ℕ) (hj : j < b.length), j < i →
        (b.get ⟨j, hj⟩).timestamp < (b.get ⟨i, hi⟩).timestamp) →
      ∃ t, sortDesc b = b.get ⟨i, hi⟩ :: t := by
  intro b
  induction b with
  | nil => intro i hi; exact absurd hi (by simp)
  | cons x rest ih =>
    intro i hi hmax hfirst
    cases i with
    | zero =>
      have hmaxL : ∀ y ∈ sortDesc rest, y.timestamp ≤ x.timestamp := by
        intro y hy
        obtain ⟨⟨j, hj⟩, hyeq⟩ :=
          List.mem_iff_get.mp ((sortDesc_perm rest).mem_iff.mp hy)
        rw [← hyeq]
        exact hmax (j + 1) (by simpa using hj)
      obtain ⟨t, ht⟩ := insertDesc_head_of_max x (sortDesc rest) hmaxL
      exact ⟨t, ht⟩
    | succ j0 =>
      have hj0 : j0 < rest.length := by simpa using hi
      have hmax' : ∀ (j : ℕ) (hj : j < rest.length),
          (rest.get ⟨j, hj⟩).timestamp ≤ (rest.get ⟨j0, hj0⟩).timestamp := by
        intro j hj
        exact hmax (j + 1) (by simpa using hj)
      have hfirst' : ∀ (j : ℕ) (hj : j < rest.length), j < j0 →
          (rest.get ⟨j, hj⟩).timestamp < (rest.get ⟨j0, hj0⟩).timestamp := by
        intro j hj hlt
        exact hfirst (j + 1) (by simpa using hj) (by omega)
      obtain ⟨t, ht⟩ := ih j0 hj0 hmax' hfirst'
      have hxlt : x.timestamp < (rest.get ⟨j0, hj0⟩).timestamp :=
        hfirst 0 (by simp) (by omega)
      refine ⟨insertDesc x t, ?_⟩
      show insertDesc x (sortDesc rest) = _
      rw [ht]
      show (if x.timestamp < (rest.get ⟨j0, hj0⟩).timestamp
        then rest.get ⟨j0, hj0⟩ :: insertDesc x t
        else x :: rest.get ⟨j0, hj0⟩ :: t) = _
      rw [if_pos hxlt]
      rfl

/-- Every id the bounded loop marks was already marked or sits in the
queue it was given. -/
theorem apply_bounded_marked_sub (mi : ℤ) (tix : ℕ) (iv : ℤ) (n : ℕ)
    (l : Option ℤ) (q : List BackupFile) (m : List ℕ) (tr : List KeepEvent)
    (x : ℕ) (hx : x ∈ (apply_bounded mi tix iv n l q m tr).markedIds) :
    x ∈ m ∨ x ∈ q.map (fun r => r.id) := by
  cases hres : apply_bounded mi tix iv n l q m tr with
  | ok l' q' m' tr' =>
    rw [hres] at hx
    simp only [PolRes.markedIds] at hx
    obtain ⟨cons, ms, es, hq, hm, -, hperm, -, -, -⟩ :=
      apply_bounded_ok mi tix iv n l q m tr l' q' m' tr' hres
    rw [hm] at hx
    rcases List.mem_append.mp hx with h | h
    · exact Or.inl h
    · right
      have h2 : x ∈ ms ++ es.map (fun e => e.kept.id) :=
        List.mem_append.mpr (Or.inl h)
      have h3 := hperm.mem_iff.mp h2
      rw [hq]
      simp only [List.map_append, List.mem_append]
      exact Or.inl h3
  | raised m' tr' =>
    rw [hres] at hx
    simp only [PolRes.markedIds] at hx
    obtain ⟨-, hm⟩ := apply_bounded_raised mi tix iv n l q m tr m' tr' hres
    rw [hm] at hx
    exact Or.inl hx

/-- Every id the policy loop marks was already marked or sits in the
queue it was given. -/
theorem apply_policies_marked_sub (mi : ℤ) (p : List RetentionPolicy)
    (tix : ℕ) (l : Option ℤ) (q : List BackupFile) (m : List ℕ)
    (tr : List KeepEvent) (x : ℕ)
    (hx : x ∈ (apply_policies mi tix p l q m tr).markedIds) :
    x ∈ m ∨ x ∈ q.map (fun r => r.id) := by
  cases hres : apply_policies mi tix p l q m tr with
  | ok l' q' m' tr' =>
    rw [hres] at hx
    simp only [PolRes.markedIds] at hx
    obtain ⟨cons, ms, es, hq, hm, -, hperm, -, -, -⟩ :=
      apply_policies_ok mi p tix l q m tr l' q' m' tr' hres
    rw [hm] at hx
    rcases List.mem_append.mp hx with h | h
    · exact Or.inl h
    · right
      have h2 : x ∈ ms ++ es.map (fun e => e.kept.id) :=
        List.mem_append.mpr (Or.inl h)
      have h3 := hperm.mem_iff.mp h2
      rw [hq]
      simp only [List.map_append, List.mem_append]
      exact Or.inl h3
  | raised m' tr' =>
    rw [hres] at hx
    simp only [PolRes.markedIds] at hx
    obtain ⟨-, hm⟩ :=
      apply_policies_raised mi p tix l q m tr m' tr' hres
    rw [hm] at hx
    exact Or.inl hx

/-- In a run started with no previous kept record, the head of the
queue — the globally newest record — is never marked: the very first
record pulled by any tier is returned to be kept without a division
or a mark. -/
theorem apply_policies_marked_head (mi : ℤ) :
    ∀ (p : List RetentionPolicy) (tix : ℕ) (hd : BackupFile)
      (t : List BackupFile) (m : List ℕ) (tr : List KeepEvent) (x : ℕ),
      x ∈ (apply_policies mi tix p none (hd :: t) m tr).markedIds →
      x ∈ m ∨ x ∈ t.map (fun r => r.id) := by
  intro p
  induction p with
  | nil =>
    intro tix hd t m tr x hx
    simp only [apply_policies, PolRes.markedIds] at hx
    exact Or.inl hx
  | cons p0 tl ih =>
    intro tix hd t m tr x hx
    cases tl with
    | nil =>
      rw [show apply_policies mi tix [p0] none (hd :: t) m tr
          = apply_last_fuel mi tix p0.interval ((hd :: t).length + 1) none
            (hd :: t) m tr from rfl,
        apply_last_fuel_eq_bounded,
        show apply_bounded mi tix p0.interval ((hd :: t).length + 1) none
            (hd :: t) m tr
          = apply_bounded mi tix p0.interval (t.length + 1)
            (some hd.timestamp) t m
            (tr ++ [⟨tix, p0.interval, none, hd⟩]) from rfl] at hx
      exact apply_bounded_marked_sub mi tix p0.interval (t.length + 1)
        (some hd.timestamp) t m (tr ++ [⟨tix, p0.interval, none, hd⟩]) x hx
    | cons p1 rest =>
      rw [apply_policies_cons mi tix p0 (p1 :: rest) (by simp)] at hx
      cases hk : p0.keep_count with
      | zero =>
        rw [hk,
          show apply_bounded mi tix p0.interval 0 none (hd :: t) m tr
            = .ok none (hd :: t) m tr from rfl] at hx
        exact ih (tix + 1) hd t m tr x hx
      | succ n =>
        rw [hk,
          show apply_bounded mi tix p0.interval (n + 1) none (hd :: t) m tr
            = apply_bounded mi tix p0.interval n (some hd.timestamp) t m
              (tr ++ [⟨tix, p0.interval, none, hd⟩]) from rfl] at hx
        cases hb : apply_bounded mi tix p0.interval n (some hd.timestamp) t m
            (tr ++ [⟨tix, p0.interval, none, hd⟩]) with
        | ok l2 q2 m2 tr2 =>
          rw [hb] at hx
          obtain ⟨cons, ms, es, hq, hm, -, hperm, -, -, -⟩ :=
            apply_bounded_ok mi tix p0.interval n (some hd.timestamp) t m
              (tr ++ [⟨tix, p0.interval, none, hd⟩]) l2 q2 m2 tr2 hb
          rcases apply_policies_marked_sub mi (p1 :: rest) (tix + 1) l2 q2 m2
              tr2 x hx with h | h
          · rw [hm] at h
            rcases List.mem_append.mp h with h2 | h2
            · exact Or.inl h2
            · right
              have h3 : x ∈ ms ++ es.map (fun e => e.kept.id) :=
                List.mem_append.mpr (Or.inl h2)
              have h4 := hperm.mem_iff.mp h3
              rw [hq]
              simp only [List.map_append, List.mem_append]
              exact Or.inl h4
          · right
            rw [hq]
            simp only [List.map_append, List.mem_append]
            exact Or.inr h
        | raised m2 tr2 =>
          rw [hb] at hx
          simp only [PolRes.markedIds] at hx
          obtain ⟨-, hm2⟩ := apply_bounded_raised mi tix p0.interval n
            (some hd.timestamp) t m (tr ++ [⟨tix, p0.interval, none, hd⟩])
            m2 tr2 hb
          rw [hm2] at hx
          exact Or.inl hx

/-- The records returned by `apply` are the caller's records with the
loop's marks applied, whether or not the loop raised. -/
theorem applyFull_records (p : List RetentionPolicy) (b : List BackupFile) :
    (applyFull p b).records
      = markIds ((apply_policies p.headI.interval 0 p none
          (sortDesc b) [] []).markedIds) b := by
  cases hres : apply_policies p.headI.interval 0 p none (sortDesc b) [] [] with
  | ok l' q' m' tr' =>
    rw [applyFull_eq_ok p b l' q' m' tr' hres]
    rfl
  | raised m' tr' =>
    rw [applyFull_eq_raised p b m' tr' hres]
    rfl

/-- Marking preserves the number of records. -/
theorem markIds_length (m : List ℕ) (bs : List BackupFile) :
    (markIds m bs).length = bs.length := by
  simp [markIds]

/-- Marking acts pointwise. -/
theorem markIds_get (m : List ℕ) (bs : List BackupFile) (i : ℕ)
    (h : i < (markIds m bs).length) :
    (markIds m bs).get ⟨i, h⟩ =
      (if (bs.get ⟨i, by simpa [markIds] using h⟩).id ∈ m
        then (bs.get ⟨i, by simpa [markIds] using h⟩).mark_to_delete
        else bs.get ⟨i, by simpa [markIds] using h⟩) := by
  simp [markIds, List.get_eq_getElem]

/-- C2: for every tier list and every collection of fresh records with
distinct identities, the record with the maximum timestamp — among
ties, the one earliest in the input order — still has
`should_delete = False` after `apply`. -/
theorem c2_newest_always_kept (p : List RetentionPolicy)
    (b : List BackupFile) (i : ℕ) (hi : i < b.length)
    (hmax : ∀ (j : ℕ) (hj : j < b.length),
      (b.get ⟨j, hj⟩).timestamp ≤ (b.get ⟨i, hi⟩).timestamp)
    (hfirst : ∀ (j : ℕ) (hj : j < b.length), j < i →
      (b.get ⟨j, hj⟩).timestamp < (b.get ⟨i, hi⟩).timestamp)
    (hflags : ∀ x ∈ b, x.should_delete = false)
    (hids : (b.map (fun r => r.id)).Nodup) :
    ∃ hlen : i < (applyModel p b).1.length,
      ((applyModel p b).1.get ⟨i, hlen⟩).should_delete = false := by
  obtain ⟨t, ht⟩ := sortDesc_head_firstmax b i hi hmax hfirst
  have hrecords : (applyModel p b).1
      = markIds ((apply_policies p.headI.interval 0 p none
          (sortDesc b) [] []).markedIds) b := applyFull_records p b
  have hnodupS : ((sortDesc b).map (fun r => r.id)).Nodup :=
    (((sortDesc_perm b).map (fun r => r.id)).nodup_iff).mpr hids
  have hnotin : (b.get ⟨i, hi⟩).id
      ∉ (apply_policies p.headI.interval 0 p none (sortDesc b) [] []).markedIds := by
    intro hmem
    rw [ht] at hmem
    rcases apply_policies_marked_head p.headI.interval p 0 (b.get ⟨i, hi⟩)
        t [] [] (b.get ⟨i, hi⟩).id hmem with h | h
    · simp at h
    · rw [ht] at hnodupS
      simp only [List.map_cons, List.nodup_cons] at hnodupS
      exact hnodupS.1 h
  have hlen : i < (applyModel p b).1.length := by
    rw [hrecords, markIds_length]
    exact hi
  refine ⟨hlen, ?_⟩
  rw [List.get_of_eq hrecords ⟨i, hlen⟩, markIds_get, if_neg hnotin]
  exact hflags (b.get ⟨i, hi⟩) (List.get_mem b i hi)

/-- Witness for C2 at a concrete input: two fresh records, the newer
one sits at index 1 and stays kept. -/
theorem c2_witness :
    ∃ hlen : 1 < (applyModel [⟨900, 2⟩]
        [⟨0, 5, false⟩, ⟨1, 100, false⟩]).1.length,
      ((applyModel [⟨900, 2⟩] [⟨0, 5, false⟩, ⟨1, 100, false⟩]).1.get
        ⟨1, hlen⟩).should_delete = false :=
  c2_newest_always_kept [⟨900, 2⟩] [⟨0, 5, false⟩, ⟨1, 100, false⟩] 1
    (by decide) (by decide) (by decide) (by decide) (by decide)

/-! ## Spacing of kept records (the admission inequality) -/

/-- A keep event respects the rounded admission inequality: when its
tier admitted the record with a previous kept timestamp on hand, the
rounded elapsed units were at least the rounded required units. -/
def goodEvent (mi : ℤ) (e : KeepEvent) : Prop :=
  ∀ l0, e.lastBefore = some l0 →
    pyRound (Rat.divInt e.interval mi)
      ≤ pyRound (Rat.divInt (l0 - e.kept.timestamp) mi)

/-- Consecutive keep events: the later one measured its gap from the
earlier one's record. -/
def chainR (e1 e2 : KeepEvent) : Prop :=
  e2.lastBefore = some e1.kept.timestamp

/-- The running `_last_backup_datetime` is the timestamp of the last
traced keep, when there is one. -/
def linked (tr : List KeepEvent) (l : Option ℤ) : Prop :=
  ∀ e, tr.getLast? = some e → l = some e.kept.timestamp

/-- The bounded loop preserves the trace invariants: every event it
appends satisfies the admission inequality, events chain through the
running last-kept timestamp, and on normal completion the new
last-kept value closes the chain. -/
theorem apply_bounded_trace (mi : ℤ) (tix : ℕ) (iv : ℤ) :
    ∀ (n : ℕ) (l : Option ℤ) (q : List BackupFile) (m : List ℕ)
      (tr : List KeepEvent),
      (∀ e ∈ tr, goodEvent mi e) →
      List.Chain' chainR tr → linked tr l →
      (∀ e ∈ (apply_bounded mi tix iv n l q m tr).traceOf, goodEvent mi e) ∧
      List.Chain' chainR ((apply_bounded mi tix iv n l q m tr).traceOf) ∧
      (∀ (l' : Option ℤ) (q' : List BackupFile) (m' : List ℕ)
        (tr' : List KeepEvent),
        apply_bounded mi tix iv n l q m tr = .ok l' q' m' tr' →
        linked tr' l') := by
  intro n
  induction n with
  | zero =>
    intro l q m tr hgood hchain hlink
    refine ⟨hgood, hchain, ?_⟩
    intro l' q' m' tr' h
    injection h with h1 h2 h3 h4
    subst h1; subst h4
    exact hlink
  | succ n ih =>
    intro l q m tr hgood hchain hlink
    rw [show apply_bounded mi tix iv (n + 1) l q m tr =
      (match find_backup_to_keep mi iv l q m with
      | .kept b rest m2 =>
        apply_bounded mi tix iv n (some b.timestamp) rest m2
          (tr ++ [⟨tix, iv, l, b⟩])
      | .exhausted m2 => .ok l [] m2 tr
      | .raised m2 => .raised m2 tr) from rfl]
    cases hf : find_backup_to_keep mi iv l q m with
    | kept b rest m2 =>
      obtain ⟨dropped, -, -, -, hineq, -⟩ :=
        find_kept_spec mi iv l q m b rest m2 hf
      have hgood2 : ∀ e ∈ tr ++ [(⟨tix, iv, l, b⟩ : KeepEvent)],
          goodEvent mi e := by
        intro e he
        rcases List.mem_append.mp he with he | he
        · exact hgood e he
        · simp only [List.mem_singleton] at he
          subst he
          intro l0 hl0
          exact hineq l0 hl0
      have hchain2 : List.Chain' chainR
          (tr ++ [(⟨tix, iv, l, b⟩ : KeepEvent)]) := by
        refine List.Chain'.append hchain (by simp) ?_
        intro x hx y hy
        simp only [List.head?_cons, Option.mem_def, Option.some.injEq] at hy
        subst hy
        show (⟨tix, iv, l, b⟩ : KeepEvent).lastBefore = some x.kept.timestamp
        exact hlink x hx
      have hlink2 : linked (tr ++ [(⟨tix, iv, l, b⟩ : KeepEvent)])
          (some b.timestamp) := by
        intro e he
        rw [List.getLast?_concat] at he
        injection he with he2
        subst he2
        rfl
      exact ih (some b.timestamp) rest m2
        (tr ++ [⟨tix, iv, l, b⟩]) hgood2 hchain2 hlink2
    | exhausted m2 =>
      refine ⟨hgood, hchain, ?_⟩
      intro l' q' m' tr' h
      injection h with h1 h2 h3 h4
      subst h1; subst h4
      exact hlink
    | raised m2 =>
      exact ⟨hgood, hchain, fun l' q' m' tr' h => absurd h (by simp)⟩

/-- The whole policy loop preserves the trace invariants. -/
theorem apply_policies_trace (mi : ℤ) :
    ∀ (p : List RetentionPolicy) (tix : ℕ) (l : Option ℤ)
      (q : List BackupFile) (m : List ℕ) (tr : List KeepEvent),
      (∀ e ∈ tr, goodEvent mi e) →
      List.Chain' chainR tr → linked tr l →
      (∀ e ∈ (apply_policies mi tix p l q m tr).traceOf, goodEvent mi e) ∧
      List.Chain' chainR ((apply_policies mi tix p l q m tr).traceOf) := by
  intro p
  induction p with
  | nil =>
    intro tix l q m tr hgood hchain hlink
    exact ⟨hgood, hchain⟩
  | cons p0 tl ih =>
    intro tix l q m tr hgood hchain hlink
    cases tl with
    | nil =>
      rw [show apply_policies mi tix [p0] l q m tr
          = apply_last_fuel mi tix p0.interval (q.length + 1) l q m tr from rfl,
        apply_last_fuel_eq_bounded]
      obtain ⟨h1, h2, -⟩ := apply_bounded_trace mi tix p0.interval
        (q.length + 1) l q m tr hgood hchain hlink
      exact ⟨h1, h2⟩
    | cons p1 rest =>
      rw [apply_policies_cons mi tix p0 (p1 :: rest) (by simp)]
      cases hb : apply_bounded mi tix p0.interval p0.keep_count l q m tr with
      | ok l2 q2 m2 tr2 =>
        obtain ⟨h1, h2, h3⟩ := apply_bounded_trace mi tix p0.interval
          p0.keep_count l q m tr hgood hchain hlink
        rw [hb] at h1 h2
        simp only [PolRes.traceOf] at h1 h2
        exact ih (tix + 1) l2 q2 m2 tr2 h1 h2 (h3 l2 q2 m2 tr2 hb)
      | raised m2 tr2 =>
        obtain ⟨h1, h2, -⟩ := apply_bounded_trace mi tix p0.interval
          p0.keep_count l q m tr hgood hchain hlink
        rw [hb] at h1 h2
        exact ⟨h1, h2⟩

/-- The trace produced by `apply`. -/
theorem applyFull_trace (p : List RetentionPolicy) (b : List BackupFile) :
    (applyFull p b).trace
      = (apply_policies p.headI.interval 0 p none
          (sortDesc b) [] []).traceOf := by
  cases hres : apply_policies p.headI.interval 0 p none (sortDesc b) [] [] with
  | ok l' q' m' tr' =>
    rw [applyFull_eq_ok p b l' q' m' tr' hres]
    rfl
  | raised m' tr' =>
    rw [applyFull_eq_raised p b m' tr' hres]
    rfl

/-- C3: for every record collection and tier list with positive first
interval (the base unit): whenever `apply` keeps a record `r` while
`k` was the most recently kept record, the admitting tier `t`
satisfies `round((k.timestamp - r.timestamp) / baseUnit) >=
round(t.interval / baseUnit)` — each keep event with a previous kept
timestamp obeys the rounded admission inequality, and consecutive keep
events indeed measure from the previously kept record, so consecutive
kept records admitted under the same tier are at least that tier's
spacing apart up to the rounding tolerance. -/
theorem c3_spacing_admission (p : List RetentionPolicy)
    (b : List BackupFile) (hbase : 0 < p.headI.interval) :
    (∀ e ∈ (applyFull p b).trace, ∀ l0, e.lastBefore = some l0 →
      pyRound (Rat.divInt e.interval p.headI.interval)
        ≤ pyRound (Rat.divInt (l0 - e.kept.timestamp) p.headI.interval)) ∧
    List.Chain' (fun e1 e2 => e2.lastBefore = some e1.kept.timestamp)
      (applyFull p b).trace := by
  obtain ⟨hgood, hchain⟩ := apply_policies_trace p.headI.interval p 0 none
    (sortDesc b) [] [] (by simp) (by simp)
    (by intro e he; simp at he)
  constructor
  · intro e he l0 hl0
    rw [applyFull_trace] at he
    exact hgood e he l0 hl0
  · rw [applyFull_trace]
    exact hchain

/-- Witness for C3 at a concrete input: three records, two tiers. -/
theorem c3_witness :
    (∀ e ∈ (applyFull [⟨900, 1⟩, ⟨1800, 3⟩]
        [⟨0, 3600, false⟩, ⟨1, 1800, false⟩, ⟨2, 0, false⟩]).trace,
      ∀ l0, e.lastBefore = some l0 →
        pyRound (Rat.divInt e.interval 900)
          ≤ pyRound (Rat.divInt (l0 - e.kept.timestamp) 900)) ∧
    List.Chain' (fun e1 e2 => e2.lastBefore = some e1.kept.timestamp)
      (applyFull [⟨900, 1⟩, ⟨1800, 3⟩]
        [⟨0, 3600, false⟩, ⟨1, 1800, false⟩, ⟨2, 0, false⟩]).trace :=
  c3_spacing_admission [⟨900, 1⟩, ⟨1800, 3⟩]
    [⟨0, 3600, false⟩, ⟨1, 1800, false⟩, ⟨2, 0, false⟩] (by decide)

/-! ## Idempotence: verdicts depend only on timestamps and order -/

/-- Pointwise form of `markIds`. -/
def mfun (m0 : List ℕ) (b : BackupFile) : BackupFile :=
  if b.id ∈ m0 then b.mark_to_delete else b

/-- `markIds` is the pointwise map of `mfun`. -/
theorem markIds_eq_map (m0 : List ℕ) (bs : List BackupFile) :
    markIds m0 bs = bs.map (mfun m0) := rfl

/-- Marking does not change a record's identity. -/
theorem mfun_id (m0 : List ℕ) (b : BackupFile) : (mfun m0 b).id = b.id := by
  unfold mfun BackupFile.mark_to_delete
  split <;> rfl

/-- Marking does not change a record's timestamp. -/
theorem mfun_timestamp (m0 : List ℕ) (b : BackupFile) :
    (mfun m0 b).timestamp = b.timestamp := by
  unfold mfun BackupFile.mark_to_delete
  split <;> rfl

/-- Marking twice with the same set is marking once. -/
theorem markIds_idem (m0 : List ℕ) (bs : List BackupFile) :
    markIds m0 (markIds m0 bs) = markIds m0 bs := by
  rw [markIds_eq_map, markIds_eq_map, List.map_map]
  refine List.map_congr_left ?_
  intro b _
  show mfun m0 (mfun m0 b) = mfun m0 b
  unfold mfun BackupFile.mark_to_delete
  by_cases h : b.id ∈ m0 <;> simp [h]

/-- One unfolding of `_find_backup_to_keep` with a previous kept
timestamp and a non-zero first interval. -/
theorem find_cons_some (mi iv l0 : ℤ) (a : BackupFile)
    (q0 : List BackupFile) (mk : List ℕ) (hmi : mi ≠ 0) :
    find_backup_to_keep mi iv (some l0) (a :: q0) mk
      = if pyRound (Rat.divInt (l0 - a.timestamp) mi)
            < pyRound (Rat.divInt iv mi)
        then find_backup_to_keep mi iv (some l0) q0 (mk ++ [a.id])
        else .kept a q0 mk := by
  simp [find_backup_to_keep, hmi]

/-- `_find_backup_to_keep` only reads ids and timestamps, which
re-marking preserves: on a re-marked queue it makes the same decisions
and returns the re-marked kept record and queue. -/
theorem find_markIds (m0 : List ℕ) (mi iv : ℤ) (l : Option ℤ) :
    ∀ (q : List BackupFile) (mk : List ℕ),
      find_backup_to_keep mi iv l (q.map (mfun m0)) mk =
        match find_backup_to_keep mi iv l q mk with
        | .kept b rest mk2 => .kept (mfun m0 b) (rest.map (mfun m0)) mk2
        | .exhausted mk2 => .exhausted mk2
        | .raised mk2 => .raised mk2 := by
  intro q
  induction q with
  | nil => intro mk; rfl
  | cons a q0 ih =>
    intro mk
    cases l with
    | none => rfl
    | some l0 =>
      by_cases hmi : mi = 0
      · simp [find_backup_to_keep, hmi]
      · rw [List.map_cons,
          find_cons_some mi iv l0 (mfun m0 a) (q0.map (mfun m0)) mk hmi,
          find_cons_some mi iv l0 a q0 mk hmi, mfun_timestamp, mfun_id]
        by_cases hlt : pyRound (Rat.divInt (l0 - a.timestamp) mi)
            < pyRound (Rat.divInt iv mi)
        · rw [if_pos hlt, if_pos hlt]
          exact ih (mk ++ [a.id])
        · rw [if_neg hlt, if_neg hlt]
    
/-- The bounded loop on a re-marked queue completes with the same
last-kept value and marks, and the re-marked remaining queue. -/
theorem apply_bounded_markIds_ok (m0 : List ℕ) (mi : ℤ) (tix : ℕ)
    (iv : ℤ) :
    ∀ (n : ℕ) (l : Option ℤ) (q : List BackupFile) (mk : List ℕ)
      (tr1 tr2 : List KeepEvent) (l' : Option ℤ) (q' : List BackupFile)
      (mk' : List ℕ) (tr' : List KeepEvent),
      apply_bounded mi tix iv n l q mk tr1 = .ok l' q' mk' tr' →
      ∃ trB, apply_bounded mi tix iv n l (q.map (mfun m0)) mk tr2
        = .ok l' (q'.map (mfun m0)) mk' trB := by
  intro n
  induction n with
  | zero =>
    intro l q mk tr1 tr2 l' q' mk' tr' h
    injection h with h1 h2 h3 h4
    subst h1; subst h2; subst h3
    exact ⟨tr2, rfl⟩
  | succ n ih =>
    intro l q mk tr1 tr2 l' q' mk' tr' h
    rw [show apply_bounded mi tix iv (n + 1) l q mk tr1 =
      (match find_backup_to_keep mi iv l q mk with
      | .kept b rest m2 =>
        apply_bounded mi tix iv n (some b.timestamp) rest m2
          (tr1 ++ [⟨tix, iv, l, b⟩])
      | .exhausted m2 => .ok l [] m2 tr1
      | .raised m2 => .raised m2 tr1) from rfl] at h
    rw [show apply_bounded mi tix iv (n + 1) l (q.map (mfun m0)) mk tr2 =
      (match find_backup_to_keep mi iv l (q.map (mfun m0)) mk with
      | .kept b rest m2 =>
        apply_bounded mi tix iv n (some b.timestamp) rest m2
          (tr2 ++ [⟨tix, iv, l, b⟩])
      | .exhausted m2 => .ok l [] m2 tr2
      | .raised m2 => .raised m2 tr2) from rfl,
      find_markIds m0 mi iv l q mk]
    cases hf : find_backup_to_keep mi iv l q mk with
    | kept b rest m2 =>
      rw [hf] at h
      show ∃ trB, apply_bounded mi tix iv n (some (mfun m0 b).timestamp)
        (rest.map (mfun m0)) m2
        (tr2 ++ [⟨tix, iv, l, mfun m0 b⟩]) = _
      rw [mfun_timestamp]
      exact ih (some b.timestamp) rest m2 (tr1 ++ [⟨tix, iv, l, b⟩])
        (tr2 ++ [⟨tix, iv, l, mfun m0 b⟩]) l' q' mk' tr' h
    | exhausted m2 =>
      rw [hf] at h
      injection h with h1 h2 h3 h4
      subst h1; subst h2; subst h3
      exact ⟨tr2, rfl⟩
    | raised m2 =>
      rw [hf] at h
      exact absurd h (by simp)

/-- The whole policy loop on a re-marked queue completes with the same
marks. -/
theorem apply_policies_markIds_ok (m0 : List ℕ) (mi : ℤ) :
    ∀ (p : List RetentionPolicy) (tix : ℕ) (l : Option ℤ)
      (q : List BackupFile) (mk : List ℕ) (tr1 tr2 : List KeepEvent)
      (l' : Option ℤ) (q' : List BackupFile) (mk' : List ℕ)
      (tr' : List KeepEvent),
      apply_policies mi tix p l q mk tr1 = .ok l' q' mk' tr' →
      ∃ trB, apply_policies mi tix p l (q.map (mfun m0)) mk tr2
        = .ok l' (q'.map (mfun m0)) mk' trB := by
  intro p
  induction p with
  | nil =>
    intro tix l q mk tr1 tr2 l' q' mk' tr' h
    injection h with h1 h2 h3 h4
    subst h1; subst h2; subst h3
    exact ⟨tr2, rfl⟩
  | cons p0 tl ih =>
    intro tix l q mk tr1 tr2 l' q' mk' tr' h
    cases tl with
    | nil =>
      rw [show apply_policies mi tix [p0] l q mk tr1
          = apply_last_fuel mi tix p0.interval (q.length + 1) l q mk tr1
          from rfl, apply_last_fuel_eq_bounded] at h
      rw [show apply_policies mi tix [p0] l (q.map (mfun m0)) mk tr2
          = apply_last_fuel mi tix p0.interval ((q.map (mfun m0)).length + 1)
            l (q.map (mfun m0)) mk tr2 from rfl,
        apply_last_fuel_eq_bounded, List.length_map]
      exact apply_bounded_markIds_ok m0 mi tix p0.interval (q.length + 1)
        l q mk tr1 tr2 l' q' mk' tr' h
    | cons p1 rest =>
      rw [apply_policies_cons mi tix p0 (p1 :: rest) (by simp)] at h
      rw [apply_policies_cons mi tix p0 (p1 :: rest) (by simp)]
      cases hb : apply_bounded mi tix p0.interval p0.keep_count l q mk tr1 with
      | ok l2 q2 m2 tr2' =>
        rw [hb] at h
        obtain ⟨trB2, hb2⟩ := apply_bounded_markIds_ok m0 mi tix p0.interval
          p0.keep_count l q mk tr1 tr2 l2 q2 m2 tr2' hb
        rw [hb2]
        exact ih (tix + 1) l2 q2 m2 tr2' trB2 l' q' mk' tr' h
      | raised m2 tr2' =>
        rw [hb] at h
        exact absurd h (by simp)

/-- `sortDesc` commutes with re-marking (it compares only
timestamps). -/
theorem insertDesc_map_mfun (m0 : List ℕ) (x : BackupFile) :
    ∀ L : List BackupFile,
      insertDesc (mfun m0 x) (L.map (mfun m0))
        = (insertDesc x L).map (mfun m0) := by
  intro L
  induction L with
  | nil => rfl
  | cons a L0 ih =>
    by_cases h : x.timestamp < a.timestamp
    · rw [show insertDesc x (a :: L0) = a :: insertDesc x L0 from by
        simp [insertDesc, h]]
      rw [List.map_cons, List.map_cons,
        show insertDesc (mfun m0 x) (mfun m0 a :: L0.map (mfun m0))
          = mfun m0 a :: insertDesc (mfun m0 x) (L0.map (mfun m0)) from by
        simp [insertDesc, mfun_timestamp, h]]
      rw [ih]
    · rw [show insertDesc x (a :: L0) = x :: a :: L0 from by
        simp [insertDesc, h]]
      rw [List.map_cons,
        show insertDesc (mfun m0 x) (mfun m0 a :: L0.map (mfun m0))
          = mfun m0 x :: mfun m0 a :: L0.map (mfun m0) from by
        simp [insertDesc, mfun_timestamp, h]]
      rfl

/-- `sortDesc` commutes with re-marking. -/
theorem sortDesc_map_mfun (m0 : List ℕ) :
    ∀ b : List BackupFile,
      sortDesc (b.map (mfun m0)) = (sortDesc b).map (mfun m0) := by
  intro b
  induction b with
  | nil => rfl
  | cons x rest ih =>
    show insertDesc (mfun m0 x) (sortDesc (rest.map (mfun m0))) = _
    rw [ih, insertDesc_map_mfun]
    rfl

/-- C4: running `apply` a second time on the same records, already
carrying the verdicts of the first run, yields exactly the same
keep/delete partition and the same exception behaviour: verdicts
depend only on timestamps and order, and marking is idempotent. -/
theorem c4_idempotent_reapplication (p : List RetentionPolicy)
    (b : List BackupFile) :
    applyModel p ((applyModel p b).1) = applyModel p b := by
  cases hres : apply_policies p.headI.interval 0 p none (sortDesc b) [] [] with
  | raised m' tr' =>
    obtain ⟨-, hm⟩ :=
      apply_policies_raised p.headI.interval p 0 none (sortDesc b) [] []
        m' tr' hres
    have h1 : (applyModel p b).1 = b := by
      rw [show (applyModel p b).1 = (applyFull p b).records from rfl,
        applyFull_eq_raised p b m' tr' hres, hm]
      show markIds [] b = b
      exact markIds_nil b
    rw [h1]
  | ok l' q' m' tr' =>
    have h1 : (applyModel p b).1 = markIds m' b := by
      rw [show (applyModel p b).1 = (applyFull p b).records from rfl,
        applyFull_eq_ok p b l' q' m' tr' hres]
    obtain ⟨trB, hres2⟩ := apply_policies_markIds_ok m' p.headI.interval p 0
      none (sortDesc b) [] [] [] l' q' m' tr' hres
    have h2 : applyFull p (markIds m' b)
        = ⟨markIds m' (markIds m' b), false, trB, q'.map (mfun m')⟩ := by
      apply applyFull_eq_ok
      rw [markIds_eq_map, sortDesc_map_mfun]
      exact hres2
    rw [h1]
    show ((applyFull p (markIds m' b)).records,
      (applyFull p (markIds m' b)).raised) = _
    rw [h2]
    show (markIds m' (markIds m' b), false) = _
    rw [markIds_idem]
    show _ = ((applyFull p b).records, (applyFull p b).raised)
    rw [applyFull_eq_ok p b l' q' m' tr' hres]

/-! ## The keep-count bound -/

/-- C7: with a non-empty tier list (positive base interval) over fresh
records with distinct identities, each non-terminal tier admits at most
`keep_count` records, so the number of records left unmarked is at most
the sum of the non-terminal `keep_count`s plus the number of records
the terminal tier admitted (keep events of the last tier index), and
never exceeds the total record count. -/
theorem c7_keep_count_bound (p : List RetentionPolicy) (b : List BackupFile)
    (hp : p ≠ []) (hbase : 0 < p.headI.interval)
    (hflags : ∀ x ∈ b, x.should_delete = false)
    (hids : (b.map (fun r => r.id)).Nodup) :
    ((applyModel p b).1.countP (fun x => !x.should_delete))
        ≤ ((p.dropLast).map (fun t => t.keep_count)).sum
          + ((applyFull p b).trace.countP
              (fun e => e.tierIdx == p.length - 1)) ∧
    ((applyModel p b).1.countP (fun x => !x.should_delete)) ≤ b.length := by
  have hlen : (applyModel p b).1.length = b.length := by
    rw [show (applyModel p b).1 = (applyFull p b).records from rfl,
      applyFull_records, markIds_length]
  refine ⟨?_, le_trans (List.countP_le_length _) (le_of_eq hlen)⟩
  cases hres : apply_policies p.headI.interval 0 p none (sortDesc b) [] [] with
  | raised m' tr' =>
    obtain ⟨h0, -⟩ :=
      apply_policies_raised p.headI.interval p 0 none (sortDesc b) [] []
        m' tr' hres
    omega
  | ok l' q' m' tr' =>
    obtain ⟨cons, ms, es, hq, hm, htr, hperm, hne, hcnt, -⟩ :=
      apply_policies_ok p.headI.interval p 0 none (sortDesc b) [] []
        l' q' m' tr' hres
    have hq0 : q' = [] := hne hp
    rw [hq0, List.append_nil] at hq
    rw [show ([] : List ℕ) ++ ms = ms from rfl] at hm
    rw [show ([] : List KeepEvent) ++ es = es from rfl] at htr
    rw [← hm, ← htr] at hperm
    rw [← htr] at hcnt
    rw [← hq] at hperm
    -- the records after apply
    have hrecords : (applyModel p b).1 = markIds m' b := by
      rw [show (applyModel p b).1 = (applyFull p b).records from rfl,
        applyFull_records, hres]
      rfl
    have htrace : (applyFull p b).trace = tr' := by
      rw [applyFull_trace, hres]
      rfl
    -- step 1: the kept count is the count of ids outside the marks
    have hstep1 : (applyModel p b).1.countP (fun x => !x.should_delete)
        = b.countP (fun x => !(decide (x.id ∈ m'))) := by
      rw [hrecords, markIds_eq_map, List.countP_map]
      refine List.countP_congr ?_
      intro x hx
      have hfx := hflags x hx
      show (!(mfun m' x).should_delete) = true ↔ _
      unfold mfun BackupFile.mark_to_delete
      by_cases hin : x.id ∈ m' <;> simp [hin, hfx]
    -- step 2/3: the count of ids inside the marks is their number
    have hpermS : (b.map (fun r => r.id)).Perm
        (m' ++ tr'.map (fun e => e.kept.id)) :=
      (((sortDesc_perm b).map (fun r => r.id)).symm).trans hperm.symm
    have hnodupMK : (m' ++ tr'.map (fun e => e.kept.id)).Nodup :=
      hpermS.nodup_iff.mp hids
    have hdisj : m'.Disjoint (tr'.map (fun e => e.kept.id)) :=
      (List.nodup_append.mp hnodupMK).2.2
    have hin_count : b.countP (fun x => decide (x.id ∈ m')) = m'.length := by
      have h1 : b.countP (fun x => decide (x.id ∈ m'))
          = (b.map (fun r => r.id)).countP (fun i => decide (i ∈ m')) := by
        rw [List.countP_map]
        rfl
      rw [h1, hpermS.countP_eq, List.countP_append,
        List.countP_eq_length.mpr (by intro a ha; simpa using ha),
        List.countP_eq_zero.mpr (by
          intro a ha
          simp only [decide_eq_true_eq]
          exact fun hams => hdisj hams ha)]
      omega
    -- step 2: complement counting
    have hsplit : b.length = b.countP (fun x => decide (x.id ∈ m'))
        + b.countP (fun x => !(decide (x.id ∈ m'))) := by
      have h0 := List.length_eq_countP_add_countP
        (fun x : BackupFile => decide (x.id ∈ m')) (l := b)
      rw [h0]
      congr 1
      refine List.countP_congr ?_
      intro a _
      by_cases hin : a.id ∈ m' <;> simp [hin]
    -- step 4: total consumed
    have htotal : m'.length + tr'.length = b.length := by
      have h1 := hpermS.length_eq
      simp only [List.length_append, List.length_map] at h1
      omega
    -- step 5: split the events by terminal tier membership
    have hsplitE : tr'.length
        = tr'.countP (fun e => e.tierIdx == p.length - 1)
          + tr'.countP (fun e => !(e.tierIdx == p.length - 1)) := by
      have h0 := List.length_eq_countP_add_countP
        (fun e : KeepEvent => e.tierIdx == p.length - 1) (l := tr')
      rw [h0]
      congr 1
      refine List.countP_congr ?_
      intro a _
      by_cases hin : a.tierIdx = p.length - 1 <;> simp [hin]
    have hcnt0 : tr'.countP (fun e => !(e.tierIdx == p.length - 1))
        ≤ ((p.dropLast).map (fun t => t.keep_count)).sum := by
      have hz : (0 : ℕ) + (p.length - 1) = p.length - 1 := by omega
      rw [← hz]
      exact hcnt
    rw [hstep1, htrace]
    omega

/-- Witness for C7 at a concrete input: two tiers over three fresh
records. -/
theorem c7_witness :
    ((applyModel [⟨900, 2⟩, ⟨3600, 7⟩]
        [⟨0, 2000, false⟩, ⟨1, 1000, false⟩, ⟨2, 0, false⟩]).1.countP
          (fun x => !x.should_delete))
        ≤ ((([⟨900, 2⟩, ⟨3600, 7⟩] : List RetentionPolicy).dropLast).map
            (fun t => t.keep_count)).sum
          + ((applyFull [⟨900, 2⟩, ⟨3600, 7⟩]
              [⟨0, 2000, false⟩, ⟨1, 1000, false⟩, ⟨2, 0, false⟩]).trace.countP
              (fun e => e.tierIdx
                = ([⟨900, 2⟩, ⟨3600, 7⟩] : List RetentionPolicy).length - 1)) ∧
    ((applyModel [⟨900, 2⟩, ⟨3600, 7⟩]
        [⟨0, 2000, false⟩, ⟨1, 1000, false⟩, ⟨2, 0, false⟩]).1.countP
          (fun x => !x.should_delete))
      ≤ ([⟨0, 2000, false⟩, ⟨1, 1000, false⟩,
          ⟨2, 0, false⟩] : List BackupFile).length :=
  c7_keep_count_bound [⟨900, 2⟩, ⟨3600, 7⟩]
    [⟨0, 2000, false⟩, ⟨1, 1000, false⟩, ⟨2, 0, false⟩]
    (by decide) (by decide) (by decide) (by decide)
